import Mathlib

/-!
Shallow embedding of the undo/redo history engine and the expression-editing
utilities of the calculator repository, together with proofs and refutations
of the documented behavioural properties.

Strings are modelled as `List Char` (JavaScript string values); `slice`,
`trimStart`, `trimEnd` and the regular-expression based rewrites are modelled
explicitly below, following the JavaScript semantics of the source.
-/

/-- JavaScript strings are modelled as lists of characters. -/
abbrev Str := List Char

/-- The ECMAScript whitespace class used by `trim`, `trimStart`, `trimEnd`
and the regular-expression class `\s` (WhiteSpace plus LineTerminator). -/
def isJsWs (c : Char) : Bool :=
  c = ' ' || ('\x09' ≤ c && c ≤ '\x0d') || c = '\u00A0' || c = '\u1680' ||
  ('\u2000' ≤ c && c ≤ '\u200A') || c = '\u2028' || c = '\u2029' ||
  c = '\u202F' || c = '\u205F' || c = '\u3000' || c = '\uFEFF'

/-- JavaScript `String.prototype.trimStart`. -/
def trimStartWs (l : Str) : Str := l.dropWhile isJsWs

/-- JavaScript `String.prototype.trimEnd`. -/
def trimEndWs (l : Str) : Str := ((l.reverse.dropWhile isJsWs)).reverse

/-- JavaScript `String.prototype.trim`. -/
def trimWs (l : Str) : Str := trimEndWs (trimStartWs l)

/-- JavaScript `Array.prototype.slice(-m)` on an array, for a nonnegative
argument written `-maxHistory` in the source.  Note that in JavaScript
`slice(-0)` is `slice(0)`, which returns the whole array. -/
def jsSliceNeg (l : List α) (m : Nat) : List α :=
  if m = 0 then l else l.drop (l.length - m)

/-- The operator character class `[+\-*/]` used by `insertOperator` and by
the operator-spacing rewrite of `formatExpression`. -/
def isOp4 (c : Char) : Bool := c = '+' || c = '-' || c = '*' || c = '/'

/-! ## HistoryStore: the `useUndoRedo` hook (src/hooks/useUndoRedo.ts)

The hook keeps `{ value, undoStack, redoStack }` in a single React state
cell; each operation is a pure transition on that record parameterised by
`maxHistory` (default 50). -/

/-- The state held by `useUndoRedo`: current value plus the two stacks. -/
structure UndoRedoState where
  value : Str
  undoStack : List Str
  redoStack : List Str
deriving Repr, DecidableEq

/-- The initial state of `useUndoRedo(initialValue)`: both stacks empty. -/
def initUndoRedo (v : Str) : UndoRedoState := ⟨v, [], []⟩

/-- `setValue(newValue)`:
pushes the previous value (when it differs from the new one and is not the
empty string) onto the undo stack trimmed by `slice(-maxHistory)`, clears
the redo stack unconditionally, and installs the new value. -/
def setValue (maxHistory : Nat) (newValue : Str) (st : UndoRedoState) : UndoRedoState :=
  { value := newValue
    undoStack :=
      if st.value ≠ newValue ∧ st.value ≠ [] then
        jsSliceNeg (st.undoStack ++ [st.value]) maxHistory
      else st.undoStack
    redoStack := [] }

/-- `undo()`: no-op on an empty undo stack; otherwise pops the last entry,
makes it current, and pushes the pre-undo value on the front of the redo
stack capped by `slice(0, maxHistory)`. -/
def undo (maxHistory : Nat) (st : UndoRedoState) : UndoRedoState :=
  if st.undoStack = [] then st
  else
    { value := st.undoStack.getLastD []
      undoStack := st.undoStack.dropLast
      redoStack := (st.value :: st.redoStack).take maxHistory }

/-- `redo()`: no-op on an empty redo stack; otherwise shifts the first entry,
makes it current, and appends the pre-redo value to the undo stack trimmed
by `slice(-maxHistory)`. -/
def redo (maxHistory : Nat) (st : UndoRedoState) : UndoRedoState :=
  match st.redoStack with
  | [] => st
  | r :: rs =>
    { value := r
      undoStack := jsSliceNeg (st.undoStack ++ [st.value]) maxHistory
      redoStack := rs }

/-- `clearHistory()`: empties both stacks, keeps the current value. -/
def clearHistory (st : UndoRedoState) : UndoRedoState :=
  { st with undoStack := [], redoStack := [] }

/-- The four mutating operations of the store, for reachability statements. -/
inductive HistOp where
  | set (v : Str)
  | undoOp
  | redoOp
  | clearOp
deriving Repr, DecidableEq

/-- One step of the store. -/
def histStep (maxHistory : Nat) (st : UndoRedoState) : HistOp → UndoRedoState
  | HistOp.set v => setValue maxHistory v st
  | HistOp.undoOp => undo maxHistory st
  | HistOp.redoOp => redo maxHistory st
  | HistOp.clearOp => clearHistory st

/-- Running a sequence of operations from a state. -/
def runHist (maxHistory : Nat) (ops : List HistOp) (st : UndoRedoState) : UndoRedoState :=
  ops.foldl (histStep maxHistory) st

/-- Running a sequence of `setValue` calls. -/
def runSets (maxHistory : Nat) (vs : List Str) (st : UndoRedoState) : UndoRedoState :=
  vs.foldl (fun s v => setValue maxHistory v s) st

/-- Iterated `undo`. -/
def undoN (maxHistory : Nat) : Nat → UndoRedoState → UndoRedoState
  | 0, st => st
  | n + 1, st => undoN maxHistory n (undo maxHistory st)

/-- The change actions reported by the hook's change callback. -/
inductive HistoryAction where
  | set
  | undoA
  | redoA
deriving Repr, DecidableEq

/-- The options record of `useUndoRedo` as declared by the
`UseUndoRedoOptions` interface: `maxHistory`, `enableKeyboardShortcuts` and
the change callback field `onChange` (its presence is what matters here, so
it is modelled as an `Option Unit`). -/
structure UseUndoRedoOptions where
  maxHistory : Option Nat
  enableKeyboardShortcuts : Option Bool
  onChange : Option Unit
deriving Repr, DecidableEq

/-- The hook destructures `options` as
`const { maxHistory = 50, enableKeyboardShortcuts = true, onChangeCallback = undefined } = options`.
`onChangeCallback` is not a property of `UseUndoRedoOptions` (the declared
callback property is `onChange`), so in JavaScript the read yields
`undefined` for every options record: the destructured callback is absent
no matter what the caller supplied. -/
def readOnChangeCallback (_ : UseUndoRedoOptions) : Option Unit := none

/-- Callback invocations `onChangeCallback?.(value, action)` performed by a
`setValue(newValue)` call, given the destructured callback: one `set`
invocation when the callback is present, none otherwise. -/
def setValueInvocations (cb : Option Unit) (newValue : Str) : List (Str × HistoryAction) :=
  match cb with
  | none => []
  | some _ => [(newValue, HistoryAction.set)]

/-- Callback invocations performed by an `undo()` call: one `undo`
invocation with the restored value when the callback is present and the
undo stack is nonempty. -/
def undoInvocations (cb : Option Unit) (st : UndoRedoState) : List (Str × HistoryAction) :=
  match cb with
  | none => []
  | some _ =>
    if st.undoStack = [] then [] else [(st.undoStack.getLastD [], HistoryAction.undoA)]

/-- Callback invocations performed by a `redo()` call. -/
def redoInvocations (cb : Option Unit) (st : UndoRedoState) : List (Str × HistoryAction) :=
  match cb with
  | none => []
  | some _ =>
    match st.redoStack with
    | [] => []
    | r :: _ => [(r, HistoryAction.redoA)]

/-- The invocations the hook actually performs for `setValue`, wiring the
destructured (missing) `onChangeCallback` property into the emission. -/
def hookSetValueInvocations (opts : UseUndoRedoOptions) (newValue : Str) :
    List (Str × HistoryAction) :=
  setValueInvocations (readOnChangeCallback opts) newValue

/-- The invocations the hook actually performs for `undo`. -/
def hookUndoInvocations (opts : UseUndoRedoOptions) (st : UndoRedoState) :
    List (Str × HistoryAction) :=
  undoInvocations (readOnChangeCallback opts) st

/-- The invocations the hook actually performs for `redo`. -/
def hookRedoInvocations (opts : UseUndoRedoOptions) (st : UndoRedoState) :
    List (Str × HistoryAction) :=
  redoInvocations (readOnChangeCallback opts) st

/-! ## ExpressionAnalysis / SmartEditOps (src/utils/expression-editor.ts) -/

/-- One balanced-delimiter scan of `validateExpression`: walk the string
keeping a running count (+1 on the opening character, -1 on the closing
one), fail as soon as the count goes negative, and require a final count of
zero. -/
def balanceAux (openC closeC : Char) : Int → Str → Bool
  | n, [] => n = 0
  | n, c :: cs =>
    let n1 : Int := if c = openC then n + 1 else n
    let n2 : Int := if c = closeC then n1 - 1 else n1
    if n2 < 0 then false else balanceAux openC closeC n2 cs

/-- `validateExpression(expression)`: empty or whitespace-only strings are
valid; otherwise parentheses `()` and square brackets `[]` must each be
balanced. -/
def validateExpression (expression : Str) : Bool :=
  if trimWs expression = [] then true
  else balanceAux '(' ')' 0 expression && balanceAux '[' ']' 0 expression

/-- `insertOperator(expression, operator, cursorPos)` from the source:
right-trim the prefix, left-trim the suffix; if the trimmed prefix ends in
one of `+ - * /`, replace that trailing operator, else insert the operator
with one space on each side; the returned cursor is
`keptPrefix.length + operator.length + 2`. -/
def insertOperator (expression operator : Str) (cursorPos : Nat) : Str × Nat :=
  let before := trimEndWs (expression.take cursorPos)
  let after := trimStartWs (expression.drop cursorPos)
  if before.length > 0 ∧ isOp4 (before.getLastD ' ') then
    let newBefore := before.dropLast
    (newBefore ++ [' '] ++ operator ++ [' '] ++ after,
      newBefore.length + operator.length + 2)
  else
    (before ++ [' '] ++ operator ++ [' '] ++ after,
      before.length + operator.length + 2)

/-- The behaviour of `insertOperator` as the specification words it: trim
the two sides, drop a trailing operator character from the prefix rather
than stacking, splice `" op "` in between, and place the cursor immediately
after the inserted operator together with its trailing space. -/
def insertOperatorSpec (expression operator : Str) (cursorPos : Nat) : Str × Nat :=
  let pre := trimEndWs (expression.take cursorPos)
  let suf := trimStartWs (expression.drop cursorPos)
  let keep := if pre ≠ [] ∧ isOp4 (pre.getLastD ' ') then pre.dropLast else pre
  let inserted := keep ++ [' '] ++ operator ++ [' ']
  (inserted ++ suf, inserted.length)

/-- First rewrite of `formatExpression`: `replace(/\s+/g, ' ')` — collapse
every whitespace run to a single space.  `prevWs` records whether the scan
is inside a run whose space has already been emitted. -/
def collapseWsAux : Bool → Str → Str
  | _, [] => []
  | prevWs, c :: cs =>
    if isJsWs c then
      if prevWs then collapseWsAux true cs else ' ' :: collapseWsAux true cs
    else c :: collapseWsAux false cs

/-- Second rewrite: `replace(/\(\s+/g, '(')` — drop whitespace directly
following an opening parenthesis.  `b` records being right after `(`
(possibly with whitespace already consumed). -/
def rmAfterOpenAux : Bool → Str → Str
  | _, [] => []
  | b, c :: cs =>
    if b && isJsWs c then rmAfterOpenAux true cs
    else if c = '(' then '(' :: rmAfterOpenAux true cs
    else c :: rmAfterOpenAux false cs

/-- Third rewrite: `replace(/\s+\)/g, ')')` — drop whitespace directly
preceding a closing parenthesis.  `pending` buffers (in reverse) a
whitespace run whose fate depends on the next character. -/
def rmBeforeCloseAux : Str → Str → Str
  | pending, [] => pending.reverse
  | pending, c :: cs =>
    if isJsWs c then rmBeforeCloseAux (c :: pending) cs
    else if c = ')' then ')' :: rmBeforeCloseAux [] cs
    else pending.reverse ++ c :: rmBeforeCloseAux [] cs

/-- Fourth rewrite: `replace(/\s*([+\-*/])\s*/g, ' $1 ')` — each operator
character becomes `' op '`, consuming the whitespace on both sides;
whitespace not adjacent to an operator is kept as-is.  `pending` buffers
(in reverse) whitespace pending a decision, `afterOp` swallows the run
following an operator. -/
def opSpaceAux : Str → Bool → Str → Str
  | pending, _, [] => pending.reverse
  | pending, afterOp, c :: cs =>
    if isJsWs c then
      if afterOp then opSpaceAux pending true cs
      else opSpaceAux (c :: pending) false cs
    else if isOp4 c then ' ' :: c :: ' ' :: opSpaceAux [] true cs
    else pending.reverse ++ c :: opSpaceAux [] false cs

/-- `formatExpression(expression)`: the four rewrites above followed by
`trim()`. -/
def formatExpression (expression : Str) : Str :=
  trimWs (opSpaceAux [] false
    (rmBeforeCloseAux [] (rmAfterOpenAux false (collapseWsAux false expression))))

/-- Depth update of the forward paren scan at one character: the source
increments on `'('` and decrements on `')'` (a character is never both, so
the two `if` statements collapse to this). -/
def parenStep (c : Char) (d : Int) : Int :=
  if c = '(' then d + 1 else if c = ')' then d - 1 else d

/-- Depth update of the backward paren scan at one character: increments on
`')'`, decrements on `'('`. -/
def parenStepBack (c : Char) (d : Int) : Int :=
  if c = ')' then d + 1 else if c = '(' then d - 1 else d

/-- Forward scan of `findMatchingParen`, from index `i` with running depth
`depth`; returns the first index at which the depth reaches zero, `-1` when
the string ends first. -/
def fmAux (s : Str) (i : Nat) (depth : Int) : Int :=
  if h : i < s.length then
    if parenStep (s.get ⟨i, h⟩) depth = 0 then (i : Int)
    else fmAux s (i + 1) (parenStep (s.get ⟨i, h⟩) depth)
  else -1
termination_by s.length - i

/-- `findMatchingParen(expression, openPos)`: `-1` unless the character at
`openPos` is `'('`; otherwise scan forward from `openPos + 1` with depth 1. -/
def findMatchingParen (s : Str) (openPos : Nat) : Int :=
  if s.get? openPos = some '(' then fmAux s (openPos + 1) 1 else -1

/-- Backward scan of `findMatchingOpenParen`: the first argument is the
number of positions left to inspect (the JavaScript loop runs
`i = closePos - 1` down to `0`). -/
def fmoAux (s : Str) : Nat → Int → Int
  | 0, _ => -1
  | k + 1, depth =>
    if parenStepBack (s.getD k ' ') depth = 0 then (k : Int)
    else fmoAux s k (parenStepBack (s.getD k ' ') depth)

/-- `findMatchingOpenParen(expression, closePos)`: `-1` unless the character
at `closePos` is `')'`; otherwise scan backward from `closePos - 1` with
depth 1. -/
def findMatchingOpenParen (s : Str) (closePos : Nat) : Int :=
  if s.get? closePos = some ')' then fmoAux s closePos 1 else -1

/-! ## ExpressionEditorController: the `useExpressionEditor` hook
(src/hooks/useExpressionEditor.ts)

The controller composes a `useUndoRedo` store with cursor/selection state.
`validator` and `maxHistory` are the injected configuration.  Each action
is the pure effect of one call on the React state cells (`lastModifiedTime`
and the external callbacks carry no state and are omitted). -/

/-- The state cells of `useExpressionEditor`: the embedded history store
plus cursor, selection and validity flags. -/
structure ExpressionEditorState where
  hist : UndoRedoState
  cursorPosition : Nat
  selectionStart : Nat
  selectionEnd : Nat
  isValid : Bool
deriving Repr, DecidableEq

/-- The committed expression is the history store's current value. -/
def expressionOf (st : ExpressionEditorState) : Str := st.hist.value

/-- Initial editor state for `useExpressionEditor({initialExpression})`:
cursor at the end of the initial expression, empty selection, valid. -/
def initEditor (initialExpression : Str) : ExpressionEditorState :=
  ⟨initUndoRedo initialExpression, initialExpression.length, 0, 0, true⟩

/-- `setExpression(expression)`: run the validator, store the verdict in
`isValid`; only when valid, commit through `setValue` and move the cursor
to the end of the new expression. -/
def esSetExpression (validator : Str → Bool) (maxHistory : Nat) (expression : Str)
    (st : ExpressionEditorState) : ExpressionEditorState :=
  let valid := validator expression
  if valid then
    { st with
      isValid := valid
      hist := setValue maxHistory expression st.hist
      cursorPosition := expression.length }
  else { st with isValid := valid }

/-- `insertText(text)`: splice `text` at the cursor, go through
`setExpression`, then set the cursor to `cursorPosition + text.length`
(this last write happens whether or not the validator accepted). -/
def esInsertText (validator : Str → Bool) (maxHistory : Nat) (text : Str)
    (st : ExpressionEditorState) : ExpressionEditorState :=
  let newExpression :=
    (expressionOf st).take st.cursorPosition ++ text ++
      (expressionOf st).drop st.cursorPosition
  let st1 := esSetExpression validator maxHistory newExpression st
  { st1 with cursorPosition := st.cursorPosition + text.length }

/-- `deleteText(start, end)`: remove the slice, go through `setExpression`,
then set the cursor to `Math.max(0, start)` unconditionally. -/
def esDeleteText (validator : Str → Bool) (maxHistory : Nat) (startPos endPos : Nat)
    (st : ExpressionEditorState) : ExpressionEditorState :=
  let newExpression :=
    (expressionOf st).take startPos ++ (expressionOf st).drop endPos
  let st1 := esSetExpression validator maxHistory newExpression st
  { st1 with cursorPosition := max 0 startPos }

/-- `replaceText(start, end, replacement)`: splice the replacement over the
range, go through `setExpression`, then set the cursor to
`start + replacement.length` unconditionally. -/
def esReplaceText (validator : Str → Bool) (maxHistory : Nat) (startPos endPos : Nat)
    (replacement : Str) (st : ExpressionEditorState) : ExpressionEditorState :=
  let newExpression :=
    (expressionOf st).take startPos ++ replacement ++ (expressionOf st).drop endPos
  let st1 := esSetExpression validator maxHistory newExpression st
  { st1 with cursorPosition := startPos + replacement.length }

/-- `clear()`: `setExpression('')` followed by a cursor reset to 0. -/
def esClear (validator : Str → Bool) (maxHistory : Nat)
    (st : ExpressionEditorState) : ExpressionEditorState :=
  let st1 := esSetExpression validator maxHistory [] st
  { st1 with cursorPosition := 0 }

/-! ## Specification artifacts and proof abstractions -/

/-- Specification reading of the history invariant: the list of values
observed immediately before each *recording* `setValue` call (a call
records exactly when the previous value differs from the new one and is
not the empty string), oldest first, starting from current value `cur`. -/
def valuesBefore (cur : Str) : List Str → List Str
  | [] => []
  | v :: vs => (if cur ≠ v ∧ cur ≠ [] then [cur] else []) ++ valuesBefore v vs

/-- Abstraction of a `formatExpression` result: a plain character, a kept
whitespace character, or an operator (rendered with one space on each
side). -/
inductive Atom where
  | ach (c : Char)
  | asp (c : Char)
  | aop (c : Char)
deriving Repr, DecidableEq

/-- Concrete rendering of one atom. -/
def renderAtom : Atom → Str
  | Atom.ach c => [c]
  | Atom.asp c => [c]
  | Atom.aop c => [' ', c, ' ']

/-- Concrete rendering of an atom list. -/
def renderAtoms (m : List Atom) : Str := (m.map renderAtom).flatten

/-- Fusion of the first three rewrites of `formatExpression` into a single
scan: `dropAfter` holds right after `(` (whitespace there is dropped),
`pending` holds a buffered collapsed space whose fate depends on the next
character (kept, unless the next character is `)`). -/
def a1Aux : Bool → Bool → Str → Str
  | _, pending, [] => if pending then [' '] else []
  | dropAfter, pending, c :: cs =>
    if isJsWs c then
      if dropAfter then a1Aux true false cs else a1Aux false true cs
    else if c = '(' then
      (if pending then [' '] else []) ++ '(' :: a1Aux true false cs
    else if c = ')' then
      ')' :: a1Aux false false cs
    else
      (if pending then [' '] else []) ++ c :: a1Aux false false cs

/-- The fourth rewrite of `formatExpression` producing atoms instead of
characters; mirrors `opSpaceAux` exactly. -/
def absAux : Str → Bool → Str → List Atom
  | pending, _, [] => pending.reverse.map Atom.asp
  | pending, afterOp, c :: cs =>
    if isJsWs c then
      if afterOp then absAux pending true cs else absAux (c :: pending) false cs
    else if isOp4 c then Atom.aop c :: absAux [] true cs
    else (pending.reverse.map Atom.asp) ++ Atom.ach c :: absAux [] false cs

/-- Full fusion: all four rewrites of `formatExpression` as one scan from
characters to atoms.  `dropWs` holds after `(` or after an operator (their
adjacent whitespace disappears), `pending` buffers one collapsed space. -/
def phiAux : Bool → Bool → Str → List Atom
  | _, pending, [] => if pending then [Atom.asp ' '] else []
  | dropWs, pending, c :: cs =>
    if isJsWs c then
      if dropWs then phiAux true false cs else phiAux false true cs
    else if isOp4 c then Atom.aop c :: phiAux true false cs
    else if c = ')' then Atom.ach ')' :: phiAux false false cs
    else if c = '(' then
      (if pending then [Atom.asp ' '] else []) ++ Atom.ach '(' :: phiAux true false cs
    else
      (if pending then [Atom.asp ' '] else []) ++ Atom.ach c :: phiAux false false cs

/-- Whether an atom is a kept space. -/
def isAspA : Atom → Bool
  | Atom.asp _ => true
  | _ => false

/-- Whether an atom is an operator. -/
def isAopA : Atom → Bool
  | Atom.aop _ => true
  | _ => false

/-- Drop kept-space atoms from the tail of an atom list. -/
def dropTrailAsp : List Atom → List Atom
  | [] => []
  | a :: m =>
    match dropTrailAsp m with
    | [] => if isAspA a then [] else [a]
    | b :: m' => a :: b :: m'

/-- Drop kept-space atoms at both ends (they disappear under `trim`). -/
def trimAtoms (m : List Atom) : List Atom := dropTrailAsp (m.dropWhile isAspA)

/-- The bare character of one atom (no operator padding). -/
def atomCore : Atom → Str
  | Atom.ach c => [c]
  | Atom.asp c => [c]
  | Atom.aop c => [c]

/-- The spacing contributed between two adjacent atoms: one space for each
operator side. -/
def sepA (a b : Atom) : Str :=
  (if isAopA a then [' '] else []) ++ (if isAopA b then [' '] else [])

/-- Boundary-free rendering of an atom list: cores joined by the pairwise
spacing.  For a list with no kept-space atom at either end this equals
`trimWs (renderAtoms m)`. -/
def renderC : List Atom → Str
  | [] => []
  | [a] => atomCore a
  | a :: b :: m => atomCore a ++ sepA a b ++ renderC (b :: m)

/-- Well-formedness of a single atom in a `formatExpression` image. -/
def atomOk : Atom → Bool
  | Atom.ach c => !isJsWs c && !isOp4 c
  | Atom.asp c => c = ' '
  | Atom.aop c => isOp4 c

/-- Allowed adjacencies in a `formatExpression` image: kept spaces never
touch operators or each other, never follow `(` and never precede `)`. -/
def pairOk : Atom → Atom → Bool
  | Atom.asp _, Atom.asp _ => false
  | Atom.aop _, Atom.asp _ => false
  | Atom.asp _, Atom.aop _ => false
  | Atom.ach c, Atom.asp _ => !(c = '(')
  | Atom.asp _, Atom.ach c => !(c = ')')
  | _, _ => true

/-- Chain well-formedness from a given previous atom: every later atom is
ok and every adjacency (starting with the pair `prev`-head) is allowed. -/
def chainFrom (prev : Atom) : List Atom → Bool
  | [] => true
  | a :: m => pairOk prev a && atomOk a && chainFrom a m

/-- Chain well-formedness: every atom ok and every adjacent pair allowed. -/
def chainOk : List Atom → Bool
  | [] => true
  | a :: m => atomOk a && chainFrom a m

/-- The bare character of an atom. -/
def coreChar : Atom → Char
  | Atom.ach c => c
  | Atom.asp c => c
  | Atom.aop c => c

/-- No kept-space atom at an (optional) boundary position. -/
def notAspHead : Option Atom → Bool
  | none => true
  | some a => !isAspA a

/-- A normalised atom list: well-formed chain with no kept space at either
end. -/
def goodAtoms (m : List Atom) : Bool :=
  chainOk m && notAspHead m.head? && notAspHead m.getLast?

/-- The leading space a rendered atom list owes to a leading operator. -/
def aPadL : List Atom → Str
  | [] => []
  | a :: _ => if isAopA a then [' '] else []

/-- The trailing space a rendered atom list owes to a trailing operator. -/
def aPadR (m : List Atom) : Str :=
  match m.getLast? with
  | none => []
  | some a => if isAopA a then [' '] else []

/-! ## Theorems -/

/-- C1: for every string failing the injected validator, `setExpression`
only flips `isValid` to `false`: the committed expression, the whole
history store (current value, undo stack, redo stack) and the cursor are
untouched — the invalid string is never committed to history. -/
theorem setExpression_rejects_invalid (validator : Str → Bool) (maxHistory : Nat)
    (s : Str) (st : ExpressionEditorState) (h : validator s = false) :
    esSetExpression validator maxHistory s st = { st with isValid := false } := by
  simp [esSetExpression, h]

/-- Witness for `setExpression_rejects_invalid`: the balanced-parenthesis
validator rejects `"("`, and the controller state changes only in
`isValid`. -/
theorem setExpression_rejects_invalid_witness :
    validateExpression "(".data = false ∧
    esSetExpression validateExpression 50 "(".data (initEditor "1".data) =
      { initEditor "1".data with isValid := false } :=
  ⟨by decide,
    setExpression_rejects_invalid validateExpression 50 "(".data (initEditor "1".data)
      (by decide)⟩

/-- C3 (code bug evidence): the hook destructures the non-existent option
property `onChangeCallback` instead of the declared `onChange`, so no
callback invocation is ever performed by `setValue`, `undo` or `redo` —
even when the caller supplies `onChange` in the options. -/
theorem onChange_never_invoked (opts : UseUndoRedoOptions) (v : Str)
    (st : UndoRedoState) :
    hookSetValueInvocations opts v = [] ∧ hookUndoInvocations opts st = [] ∧
    hookRedoInvocations opts st = [] :=
  ⟨rfl, rfl, rfl⟩

/-- C4 counterexample: in the reachable state obtained by
`setValue('b'); undo()` from initial value `'a'` (current `'a'`, redo stack
`['b']`), calling `setValue('a')` with the value equal to the current one
is not a no-op: it clears the redo stack. -/
theorem setValue_equal_clears_redo_cex :
    (undo 50 (setValue 50 "b".data (initUndoRedo "a".data))).value = "a".data ∧
    (undo 50 (setValue 50 "b".data (initUndoRedo "a".data))).redoStack = ["b".data] ∧
    (setValue 50 "a".data
        (undo 50 (setValue 50 "b".data (initUndoRedo "a".data)))).redoStack = [] := by
  decide

/-- C4 amended: `setValue(newValue)` with `newValue` equal to the current
value leaves the current value and the undo stack unchanged, but
unconditionally resets the redo stack to empty. -/
theorem setValue_equal_value_amended (maxHistory : Nat) (v : Str)
    (st : UndoRedoState) (h : st.value = v) :
    (setValue maxHistory v st).value = st.value ∧
    (setValue maxHistory v st).undoStack = st.undoStack ∧
    (setValue maxHistory v st).redoStack = [] := by
  simp [setValue, h]

/-- Witness for `setValue_equal_value_amended` at an equal-value call. -/
theorem setValue_equal_value_amended_witness :
    (initUndoRedo "a".data).value = "a".data ∧
    ((setValue 50 "a".data (initUndoRedo "a".data)).value =
        (initUndoRedo "a".data).value ∧
      (setValue 50 "a".data (initUndoRedo "a".data)).undoStack =
        (initUndoRedo "a".data).undoStack ∧
      (setValue 50 "a".data (initUndoRedo "a".data)).redoStack = []) :=
  ⟨rfl, setValue_equal_value_amended 50 "a".data (initUndoRedo "a".data) rfl⟩

/-- C5 counterexample: in the reachable state after
`setValue('b'); undo()` from initial value `'a'` (undo stack empty, redo
stack `['b']`, default `maxHistory = 50`), `undo()` is a no-op but the
following `redo()` changes the current value, so `undo(); redo()` does not
preserve `current`. -/
theorem undo_redo_roundtrip_cex :
    (redo 50 (undo 50 (undo 50 (setValue 50 "b".data (initUndoRedo "a".data))))).value ≠
      (undo 50 (setValue 50 "b".data (initUndoRedo "a".data))).value := by
  decide

/-- C5 amended: when the undo stack is nonempty (so `undo` actually moves)
and `maxHistory ≥ 1`, `undo()` immediately followed by `redo()` restores
the current value. -/
theorem undo_redo_roundtrip_amended (maxHistory : Nat) (st : UndoRedoState)
    (hm : 1 ≤ maxHistory) (hs : st.undoStack ≠ []) :
    (redo maxHistory (undo maxHistory st)).value = st.value := by
  obtain ⟨m, rfl⟩ : ∃ m, maxHistory = m + 1 := ⟨maxHistory - 1, by omega⟩
  simp [undo, hs, redo, List.take_succ_cons]

/-- Witness for `undo_redo_roundtrip_amended`. -/
theorem undo_redo_roundtrip_amended_witness :
    1 ≤ 1 ∧ (⟨"b".data, ["a".data], []⟩ : UndoRedoState).undoStack ≠ [] ∧
    (redo 1 (undo 1 (⟨"b".data, ["a".data], []⟩ : UndoRedoState))).value =
      (⟨"b".data, ["a".data], []⟩ : UndoRedoState).value :=
  ⟨le_rfl, by decide,
    undo_redo_roundtrip_amended 1 ⟨"b".data, ["a".data], []⟩ le_rfl (by decide)⟩

/-- C6 counterexample: from the initial expression `"12"` (cursor 2), an
`insertText("(")` rejected by the balanced-parenthesis validator still
moves the cursor to 3, past the end of the unchanged committed expression
`"12"`. -/
theorem cursor_past_end_cex :
    (expressionOf (esInsertText validateExpression 50 "(".data
        (initEditor "12".data))).length <
      (esInsertText validateExpression 50 "(".data (initEditor "12".data)).cursorPosition := by
  decide

/-- C6 amended: starting from a state whose cursor is within the committed
expression, `setExpression` and `clear` always leave the cursor within
bounds, and `insertText` / `deleteText` / `replaceText` leave it within
bounds provided the validator accepts the computed string (and, for
delete/replace, the start index is within the old expression).  A rejected
mutation or an out-of-range start index can leave the cursor past the end
(see `cursor_past_end_cex`). -/
theorem cursor_bound_amended (validator : Str → Bool) (maxHistory : Nat)
    (st : ExpressionEditorState)
    (hc : st.cursorPosition ≤ (expressionOf st).length) :
    (∀ s, (esSetExpression validator maxHistory s st).cursorPosition ≤
        (expressionOf (esSetExpression validator maxHistory s st)).length) ∧
    ((esClear validator maxHistory st).cursorPosition ≤
        (expressionOf (esClear validator maxHistory st)).length) ∧
    (∀ t, validator ((expressionOf st).take st.cursorPosition ++ t ++
          (expressionOf st).drop st.cursorPosition) = true →
      (esInsertText validator maxHistory t st).cursorPosition ≤
        (expressionOf (esInsertText validator maxHistory t st)).length) ∧
    (∀ a b, a ≤ (expressionOf st).length →
      validator ((expressionOf st).take a ++ (expressionOf st).drop b) = true →
      (esDeleteText validator maxHistory a b st).cursorPosition ≤
        (expressionOf (esDeleteText validator maxHistory a b st)).length) ∧
    (∀ a b r, a ≤ (expressionOf st).length →
      validator ((expressionOf st).take a ++ r ++ (expressionOf st).drop b) = true →
      (esReplaceText validator maxHistory a b r st).cursorPosition ≤
        (expressionOf (esReplaceText validator maxHistory a b r st)).length) := by
  have hc' : st.cursorPosition ≤ st.hist.value.length := by
    simpa [expressionOf] using hc
  refine ⟨fun s => ?_, ?_, fun t hv => ?_, fun a b ha hv => ?_, fun a b r ha hv => ?_⟩
  · by_cases hv : validator s = true
    · simp [esSetExpression, hv, expressionOf, setValue]
    · simp only [Bool.not_eq_true] at hv
      simpa [esSetExpression, hv, expressionOf] using hc
  · simp [esClear]
  · simp only [esInsertText, esSetExpression, expressionOf] at hv ⊢
    rw [hv]
    simp [setValue, List.length_append, List.length_take, List.length_drop]
    omega
  · simp only [expressionOf] at ha
    simp only [esDeleteText, esSetExpression, expressionOf] at hv ⊢
    rw [hv]
    simp [setValue, List.length_append, List.length_take, List.length_drop]
    omega
  · simp only [expressionOf] at ha
    simp only [esReplaceText, esSetExpression, expressionOf] at hv ⊢
    rw [hv]
    simp [setValue, List.length_append, List.length_take, List.length_drop]
    omega

/-- Witness for `cursor_bound_amended`: an accepted `setExpression` keeps
the cursor within the new expression. -/
theorem cursor_bound_amended_witness :
    (initEditor "1".data).cursorPosition ≤ (expressionOf (initEditor "1".data)).length ∧
    (esSetExpression validateExpression 50 "(1)".data
        (initEditor "1".data)).cursorPosition ≤
      (expressionOf (esSetExpression validateExpression 50 "(1)".data
        (initEditor "1".data))).length :=
  ⟨by decide,
    (cursor_bound_amended validateExpression 50 (initEditor "1".data) (by decide)).1
      "(1)".data⟩

/-- C7 counterexample: with `maxHistory = 0`, the JavaScript trim
`slice(-maxHistory)` is `slice(0)` and keeps everything, so one `setValue`
from the initial state already makes the undo stack longer than
`maxHistory`. -/
theorem maxHistory_zero_cex :
    ¬ (runHist 0 [HistOp.set "b".data] (initUndoRedo "a".data)).undoStack.length ≤ 0 := by
  decide

/-- The trim `slice(-m)` bounds the length by `m` whenever `m ≥ 1`. -/
theorem jsSliceNeg_length_le (l : List α) (m : Nat) (hm : 1 ≤ m) :
    (jsSliceNeg l m).length ≤ m := by
  rw [jsSliceNeg, if_neg (by omega)]
  simp [List.length_drop]
  omega

/-- Any single store operation preserves the undo-stack bound when
`maxHistory ≥ 1`. -/
theorem histStep_undoStack_le (maxHistory : Nat) (hm : 1 ≤ maxHistory)
    (st : UndoRedoState) (hst : st.undoStack.length ≤ maxHistory) (op : HistOp) :
    (histStep maxHistory st op).undoStack.length ≤ maxHistory := by
  cases op with
  | set v =>
    simp only [histStep, setValue]
    split
    · exact jsSliceNeg_length_le _ _ hm
    · exact hst
  | undoOp =>
    simp only [histStep, undo]
    split
    · exact hst
    · simp [List.length_dropLast]
      omega
  | redoOp =>
    simp only [histStep, redo]
    match h : st.redoStack with
    | [] => exact hst
    | r :: rs => exact jsSliceNeg_length_le _ _ hm
  | clearOp => simp [histStep, clearHistory]

/-- The undo-stack bound is preserved along any run when `maxHistory ≥ 1`. -/
theorem runHist_undoStack_le (maxHistory : Nat) (hm : 1 ≤ maxHistory)
    (ops : List HistOp) :
    ∀ st : UndoRedoState, st.undoStack.length ≤ maxHistory →
      (runHist maxHistory ops st).undoStack.length ≤ maxHistory := by
  induction ops with
  | nil => intro st hst; simpa [runHist] using hst
  | cons op ops ih =>
    intro st hst
    rw [runHist, List.foldl_cons]
    exact ih _ (histStep_undoStack_le maxHistory hm st hst op)

/-- C7 amended: for every `maxHistory ≥ 1` and every state reachable from
the initial store by `setValue` / `undo` / `redo` / `clearHistory`, the
undo stack never exceeds `maxHistory` entries.  (For `maxHistory = 0` the
bound fails, see `maxHistory_zero_cex`.) -/
theorem maxHistory_bound_amended (maxHistory : Nat) (hm : 1 ≤ maxHistory)
    (v0 : Str) (ops : List HistOp) :
    (runHist maxHistory ops (initUndoRedo v0)).undoStack.length ≤ maxHistory :=
  runHist_undoStack_le maxHistory hm ops (initUndoRedo v0) (by simp [initUndoRedo])

/-- Witness for `maxHistory_bound_amended`. -/
theorem maxHistory_bound_amended_witness :
    1 ≤ 1 ∧
    (runHist 1 [HistOp.set "b".data, HistOp.set "c".data]
        (initUndoRedo "a".data)).undoStack.length ≤ 1 :=
  ⟨le_rfl, maxHistory_bound_amended 1 le_rfl "a".data _⟩

/-- C8: `insertOperator` behaves exactly as specified — trims the two
sides, replaces (rather than stacks) a trailing operator of the prefix,
otherwise inserts the operator with one space on each side, and returns
the cursor immediately after the inserted operator and its trailing space;
in particular `insertOperator('5', '+', 1)` yields
`{expression: '5 + ', cursorPos: 4}`. -/
theorem insertOperator_matches_spec :
    (∀ e op p, insertOperator e op p = insertOperatorSpec e op p) ∧
    insertOperator "5".data "+".data 1 = ("5 + ".data, 4) := by
  constructor
  · intro e op p
    simp only [insertOperator, insertOperatorSpec]
    split_ifs with h1 h2 h2
    · simp [Prod.ext_iff, List.append_assoc, List.length_append]
      omega
    · exact absurd ⟨List.length_pos.mp h1.1, h1.2⟩ h2
    · exact absurd ⟨List.length_pos.mpr h2.1, h2.2⟩ h1
    · simp [Prod.ext_iff, List.append_assoc, List.length_append]
      omega
  · decide

/-- `slice(-m)` always yields a suffix: dropping some prefix. -/
theorem jsSliceNeg_eq_drop (l : List α) (m : Nat) :
    ∃ k, k ≤ l.length ∧ jsSliceNeg l m = l.drop k := by
  unfold jsSliceNeg
  split
  · exact ⟨0, Nat.zero_le _, by simp⟩
  · exact ⟨l.length - m, by omega, rfl⟩

/-- After a run of `setValue` calls, the current value is the last set value
and the undo stack is a suffix of the pre-values of the recording calls. -/
theorem runSets_spec (mH : Nat) (vs : List Str) :
    ∀ st : UndoRedoState,
      (runSets mH vs st).value = vs.getLastD st.value ∧
      ∃ k, k ≤ (st.undoStack ++ valuesBefore st.value vs).length ∧
        (runSets mH vs st).undoStack = (st.undoStack ++ valuesBefore st.value vs).drop k := by
  induction vs with
  | nil =>
    intro st
    refine ⟨rfl, 0, Nat.zero_le _, ?_⟩
    simp [runSets, valuesBefore]
  | cons v vs ih =>
    intro st
    have hcons : runSets mH (v :: vs) st = runSets mH vs (setValue mH v st) := rfl
    rw [hcons]
    obtain ⟨hval, k', hk', hstack⟩ := ih (setValue mH v st)
    have hv : (setValue mH v st).value = v := rfl
    rw [hv] at hval hk' hstack
    constructor
    · rw [hval, List.getLastD_cons]
    · by_cases hc : st.value ≠ v ∧ st.value ≠ []
      · have hsv : (setValue mH v st).undoStack =
            jsSliceNeg (st.undoStack ++ [st.value]) mH := by
          simp [setValue, hc]
        obtain ⟨k0, hk0, hdrop⟩ := jsSliceNeg_eq_drop (st.undoStack ++ [st.value]) mH
        have hvb : valuesBefore st.value (v :: vs) = [st.value] ++ valuesBefore v vs := by
          simp [valuesBefore, hc]
        have hassoc : st.undoStack ++ valuesBefore st.value (v :: vs) =
            (st.undoStack ++ [st.value]) ++ valuesBefore v vs := by
          rw [hvb, List.append_assoc]
        have hsplit : ((st.undoStack ++ [st.value]) ++ valuesBefore v vs).drop k0 =
            (setValue mH v st).undoStack ++ valuesBefore v vs := by
          rw [List.drop_append_eq_append_drop, Nat.sub_eq_zero_of_le hk0,
            List.drop_zero, hsv, hdrop]
        refine ⟨k0 + k', ?_, ?_⟩
        · rw [hassoc]
          have h1 : (setValue mH v st).undoStack.length =
              (st.undoStack ++ [st.value]).length - k0 := by
            rw [hsv, hdrop, List.length_drop]
          simp only [List.length_append] at h1 hk' hk0 ⊢
          omega
        · rw [hassoc, hstack, ← hsplit, List.drop_drop]
      · have hsv : (setValue mH v st).undoStack = st.undoStack := by
          simp [setValue, hc]
        have hvb : valuesBefore st.value (v :: vs) = valuesBefore v vs := by
          simp only [valuesBefore, if_neg hc, List.nil_append]
        refine ⟨k', ?_, ?_⟩
        · rw [hvb]; rw [hsv] at hk'; exact hk'
        · rw [hvb]; rw [hsv] at hstack; exact hstack

/-- `undo` applied `n` times pops exactly `n` entries: the remaining undo
stack is the matching prefix, and (for `n ≥ 1`) the current value is the
entry `n` positions from the top of the original stack. -/
theorem undoN_spec (mH : Nat) :
    ∀ (n : Nat) (st : UndoRedoState), n ≤ st.undoStack.length →
      (undoN mH n st).undoStack = st.undoStack.take (st.undoStack.length - n) ∧
      (1 ≤ n → (undoN mH n st).value =
        st.undoStack.getD (st.undoStack.length - n) []) := by
  intro n
  induction n with
  | zero =>
    intro st _
    refine ⟨?_, fun h => absurd h (by omega)⟩
    simp [undoN, List.take_length]
  | succ n ih =>
    intro st hn
    have hne : st.undoStack ≠ [] := by
      intro h
      rw [h] at hn
      simp at hn
    have hstep : undoN mH (n + 1) st = undoN mH n (undo mH st) := rfl
    have hu_stack : (undo mH st).undoStack = st.undoStack.dropLast := by
      simp [undo, hne]
    have hu_val : (undo mH st).value = st.undoStack.getLastD [] := by
      simp [undo, hne]
    have hlen : (undo mH st).undoStack.length = st.undoStack.length - 1 := by
      rw [hu_stack, List.length_dropLast]
    have hn' : n ≤ (undo mH st).undoStack.length := by omega
    obtain ⟨ihs, ihv⟩ := ih (undo mH st) hn'
    constructor
    · rw [hstep, ihs, hlen, hu_stack, List.dropLast_eq_take, List.take_take]
      congr 1
      omega
    · intro _
      rcases Nat.eq_zero_or_pos n with h0 | hpos
      · subst h0
        rw [hstep]
        show (undo mH st).value = _
        rw [hu_val, List.getLastD_eq_getLast?, List.getLast?_eq_getElem?,
          ← List.getD_eq_getElem?_getD]
      · rw [hstep, ihv hpos, hu_stack, List.length_dropLast, List.dropLast_eq_take,
          List.getD_eq_getElem?_getD, List.getD_eq_getElem?_getD, List.getElem?_take,
          if_pos (by omega)]
        have hidx : st.undoStack.length - 1 - n = st.undoStack.length - (n + 1) := by
          omega
        rw [hidx]

/-- C2: for every sequence of `setValue` calls from the initial store,
undoing `n ≥ 1` times (with `n` at most the number of retained recorded
edits) yields exactly the value observed before the corresponding
(`n`-th most recent recorded) `setValue` call; and the concrete scenario
`setValue('initial'); setValue('modified'); undo(); redo()` produces the
documented values and counters. -/
theorem history_undo_restores :
    (∀ (maxHistory : Nat) (v0 : Str) (vs : List Str) (n : Nat),
        1 ≤ n →
        n ≤ (runSets maxHistory vs (initUndoRedo v0)).undoStack.length →
        (undoN maxHistory n (runSets maxHistory vs (initUndoRedo v0))).value =
          (valuesBefore v0 vs).getD ((valuesBefore v0 vs).length - n) []) ∧
    ((setValue 50 "modified".data (initUndoRedo "initial".data)).value =
        "modified".data ∧
      (setValue 50 "modified".data (initUndoRedo "initial".data)).undoStack.length = 1 ∧
      (undo 50 (setValue 50 "modified".data (initUndoRedo "initial".data))).value =
        "initial".data ∧
      (undo 50 (setValue 50 "modified".data
        (initUndoRedo "initial".data))).redoStack.length = 1 ∧
      (redo 50 (undo 50 (setValue 50 "modified".data
        (initUndoRedo "initial".data)))).value = "modified".data ∧
      (redo 50 (undo 50 (setValue 50 "modified".data
        (initUndoRedo "initial".data)))).redoStack.length = 0) := by
  constructor
  · intro mH v0 vs n h1 hn
    obtain ⟨-, k, hk, hstack⟩ := runSets_spec mH vs (initUndoRedo v0)
    have hbase : (initUndoRedo v0).undoStack ++ valuesBefore (initUndoRedo v0).value vs =
        valuesBefore v0 vs := by
      simp [initUndoRedo]
    rw [hbase] at hk hstack
    obtain ⟨-, hv⟩ := undoN_spec mH n (runSets mH vs (initUndoRedo v0)) hn
    rw [hstack, List.length_drop] at hn
    rw [hv h1, hstack, List.length_drop,
      List.getD_eq_getElem?_getD, List.getD_eq_getElem?_getD, List.getElem?_drop]
    have hidx : k + ((valuesBefore v0 vs).length - k - n) =
        (valuesBefore v0 vs).length - n := by omega
    rw [hidx]
  · decide

/-- Witness for `history_undo_restores`: two recorded edits, two undos. -/
theorem history_undo_restores_witness :
    1 ≤ 2 ∧
    2 ≤ (runSets 50 ["b".data, "c".data] (initUndoRedo "a".data)).undoStack.length ∧
    (undoN 50 2 (runSets 50 ["b".data, "c".data] (initUndoRedo "a".data))).value =
      (valuesBefore "a".data ["b".data, "c".data]).getD
        ((valuesBefore "a".data ["b".data, "c".data]).length - 2) [] :=
  ⟨by decide, by decide,
    history_undo_restores.1 50 "a".data ["b".data, "c".data] 2 (by decide) (by decide)⟩

/-- The backward depth update inverts the forward one. -/
theorem parenStepBack_parenStep (c : Char) (d : Int) :
    parenStepBack c (parenStep c d) = d := by
  by_cases h1 : c = '('
  · subst h1
    simp [parenStep, parenStepBack]
  · by_cases h2 : c = ')'
    · subst h2
      simp [parenStep, parenStepBack]
    · simp [parenStep, parenStepBack, h1, h2]

/-- A nonzero forward depth update of a positive depth stays positive. -/
theorem parenStep_pos (c : Char) (d : Int) (hd : 1 ≤ d)
    (h0 : parenStep c d ≠ 0) : 1 ≤ parenStep c d := by
  unfold parenStep at h0 ⊢
  split_ifs at h0 ⊢ <;> omega

/-- `getD` agrees with `get` inside the bounds. -/
theorem getD_of_lt (s : Str) (i : Nat) (h : i < s.length) :
    s.getD i ' ' = s.get ⟨i, h⟩ := by
  simp [List.getD_eq_getElem?_getD, List.getElem?_eq_getElem h]

/-- Simulation of the forward paren scan by the backward one: whenever the
forward scan started at `i` with positive depth `d` stops at index `j`,
the character there is `')'` and the backward scan started just below `j`
with depth 1 runs down, mirroring the depths, to the configuration `(i, d)`. -/
theorem fmAux_fmoAux (s : Str) :
    ∀ (m i : Nat) (d : Int) (j : Nat), s.length - i ≤ m → 1 ≤ d →
      fmAux s i d = Int.ofNat j →
      i ≤ j ∧ j < s.length ∧ s.getD j ' ' = ')' ∧ fmoAux s j 1 = fmoAux s i d := by
  intro m
  induction m with
  | zero =>
    intro i d j hm hd hfm
    rw [fmAux, dif_neg (by omega)] at hfm
    exact absurd hfm (by simp)
  | succ m ih =>
    intro i d j hm hd hfm
    by_cases h : i < s.length
    · rw [fmAux, dif_pos h] at hfm
      by_cases he : parenStep (s.get ⟨i, h⟩) d = 0
      · rw [if_pos he] at hfm
        have hj : i = j := by
          rw [Int.ofNat_eq_natCast] at hfm
          exact_mod_cast hfm
        subst hj
        have hc : s.get ⟨i, h⟩ = ')' ∧ d = 1 := by
          unfold parenStep at he
          split_ifs at he with h1 h2
          · omega
          · exact ⟨h2, by omega⟩
          · omega
        refine ⟨le_rfl, h, ?_, ?_⟩
        · rw [getD_of_lt s i h, hc.1]
        · rw [hc.2]
      · rw [if_neg he] at hfm
        have he1 : 1 ≤ parenStep (s.get ⟨i, h⟩) d := parenStep_pos _ _ hd he
        obtain ⟨hij, hjl, hjc, hback⟩ :=
          ih (i + 1) (parenStep (s.get ⟨i, h⟩) d) j (by omega) he1 hfm
        refine ⟨by omega, hjl, hjc, ?_⟩
        rw [hback]
        show fmoAux s (i + 1) _ = fmoAux s i d
        rw [fmoAux, getD_of_lt s i h, parenStepBack_parenStep,
          if_neg (by omega)]
    · rw [fmAux, dif_neg h] at hfm
      exact absurd hfm (by simp)

/-- C10: whenever the character at `openPos` is `'('` and
`findMatchingParen` finds a matching index `j` (not `-1`), the backward
search `findMatchingOpenParen` at `j` returns exactly `openPos`: the two
matching-parenthesis searches are mutually inverse on successful lookups. -/
theorem matching_paren_inverse (s : Str) (openPos j : Nat)
    (hopen : s.get? openPos = some '(')
    (hfm : findMatchingParen s openPos = Int.ofNat j) :
    findMatchingOpenParen s j = Int.ofNat openPos := by
  rw [findMatchingParen, if_pos hopen] at hfm
  obtain ⟨hij, hjl, hjc, hback⟩ :=
    fmAux_fmoAux s s.length (openPos + 1) 1 j (by omega) (by omega) hfm
  have hj' : s.get? j = some ')' := by
    rw [List.get?_eq_getElem?, List.getElem?_eq_getElem hjl]
    rw [List.getD_eq_getElem?_getD, List.getElem?_eq_getElem hjl] at hjc
    simpa using hjc
  have hoplt : openPos < s.length := by
    rcases List.get?_eq_some.mp hopen with ⟨hlt, -⟩
    exact hlt
  have hgd : s.getD openPos ' ' = '(' := by
    rw [List.getD_eq_getElem?_getD, ← List.get?_eq_getElem?, hopen]
    rfl
  rw [findMatchingOpenParen, if_pos hj', hback, fmoAux, hgd]
  simp [parenStepBack]

/-- Witness for `matching_paren_inverse` on `"(a)"` at position 0. -/
theorem matching_paren_inverse_witness :
    "(a)".data.get? 0 = some '(' ∧
    findMatchingParen "(a)".data 0 = Int.ofNat 2 ∧
    findMatchingOpenParen "(a)".data 2 = Int.ofNat 0 := by
  have hfm : findMatchingParen "(a)".data 0 = Int.ofNat 2 := by
    rw [findMatchingParen, if_pos (by decide), fmAux, dif_pos (by decide),
      if_neg (by decide), fmAux, dif_pos (by decide), if_pos (by decide)]
    decide
  exact ⟨by decide, hfm, matching_paren_inverse "(a)".data 0 2 (by decide) hfm⟩

/-! ### Idempotence of `formatExpression` (C9) -/

/-- The space character is ECMAScript whitespace. -/
theorem isJsWs_space : isJsWs ' ' = true := by decide

/-- `(` is not whitespace. -/
theorem isJsWs_open : isJsWs '(' = false := by decide

/-- `)` is not whitespace. -/
theorem isJsWs_close : isJsWs ')' = false := by decide

/-- The space character is distinct from `(`. -/
theorem space_ne_open : (' ' : Char) ≠ '(' := by decide

/-- The space character is distinct from `)`. -/
theorem space_ne_close : (' ' : Char) ≠ ')' := by decide

/-- `(` is distinct from `)`. -/
theorem open_ne_close : (('(' : Char) = ')') = False := by simp

/-- `)` is distinct from `(`. -/
theorem close_ne_open : ((')' : Char) = '(') = False := by simp

/-- Operator characters are not whitespace and not parentheses. -/
theorem isOp4_char (c : Char) (h : isOp4 c = true) :
    isJsWs c = false ∧ c ≠ '(' ∧ c ≠ ')' := by
  unfold isOp4 at h
  simp only [Bool.or_eq_true, decide_eq_true_eq] at h
  rcases h with ((h | h) | h) | h <;> subst h <;>
    exact ⟨by decide, by decide, by decide⟩

/-- Rendering of the empty atom list. -/
theorem renderAtoms_nil : renderAtoms [] = [] := rfl

/-- Rendering of a cons. -/
theorem renderAtoms_cons (a : Atom) (m : List Atom) :
    renderAtoms (a :: m) = renderAtom a ++ renderAtoms m := by
  simp [renderAtoms]

/-- Rendering of an append. -/
theorem renderAtoms_append (m₁ m₂ : List Atom) :
    renderAtoms (m₁ ++ m₂) = renderAtoms m₁ ++ renderAtoms m₂ := by
  simp [renderAtoms]

/-- Rendering a list of kept-space atoms gives back the characters. -/
theorem renderAtoms_asps (l : Str) : renderAtoms (l.map Atom.asp) = l := by
  induction l with
  | nil => rfl
  | cons c cs ih => simp [renderAtoms_cons, renderAtom, ih]

/-- Reversed variant of `renderAtoms_asps`. -/
theorem renderAtoms_asps_rev (l : Str) :
    renderAtoms ((l.map Atom.asp).reverse) = l.reverse := by
  rw [← List.map_reverse, renderAtoms_asps]

/-- The operator-spacing rewrite is the rendering of its atom abstraction. -/
theorem opSpace_renderAbs :
    ∀ (s pending : Str) (afterOp : Bool),
      opSpaceAux pending afterOp s = renderAtoms (absAux pending afterOp s) := by
  intro s
  induction s with
  | nil =>
    intro pending afterOp
    simp [opSpaceAux, absAux, renderAtoms_asps_rev]
  | cons c cs ih =>
    intro pending afterOp
    by_cases hw : isJsWs c = true
    · cases afterOp <;> simp [opSpaceAux, absAux, hw, ih]
    · simp only [Bool.not_eq_true] at hw
      by_cases ho : isOp4 c = true
      · simp [opSpaceAux, absAux, hw, ho, ih, renderAtoms_cons, renderAtom]
      · simp only [Bool.not_eq_true] at ho
        simp [opSpaceAux, absAux, hw, ho, ih, renderAtoms_append,
          renderAtoms_cons, renderAtom, renderAtoms_asps_rev]

/-- Fusion of the first three rewrites of `formatExpression` into `a1Aux`,
stated for the four reachable state combinations of the three scans
(fresh; after a kept collapsed space; after `(`; after `(` with whitespace
already consumed). -/
theorem a1_fusion : ∀ s : Str,
    (rmBeforeCloseAux [] (rmAfterOpenAux false (collapseWsAux false s)) =
      a1Aux false false s) ∧
    (rmBeforeCloseAux [' '] (rmAfterOpenAux false (collapseWsAux true s)) =
      a1Aux false true s) ∧
    (rmBeforeCloseAux [] (rmAfterOpenAux true (collapseWsAux false s)) =
      a1Aux true false s) ∧
    (rmBeforeCloseAux [] (rmAfterOpenAux true (collapseWsAux true s)) =
      a1Aux true false s) := by
  intro s
  induction s with
  | nil => exact ⟨rfl, rfl, rfl, rfl⟩
  | cons c cs ih =>
    obtain ⟨ih0, ih1, ih2, ih3⟩ := ih
    by_cases hw : isJsWs c = true
    · refine ⟨?_, ?_, ?_, ?_⟩ <;>
        simp [collapseWsAux, rmAfterOpenAux, rmBeforeCloseAux, a1Aux, hw,
          isJsWs_space, space_ne_open, space_ne_close, ih0, ih1, ih2, ih3]
    · simp only [Bool.not_eq_true] at hw
      by_cases hp : c = '('
      · subst hp
        refine ⟨?_, ?_, ?_, ?_⟩ <;>
          simp [collapseWsAux, rmAfterOpenAux, rmBeforeCloseAux, a1Aux, hw,
            open_ne_close, ih0, ih1, ih2, ih3]
      · by_cases hq : c = ')'
        · subst hq
          refine ⟨?_, ?_, ?_, ?_⟩ <;>
            simp [collapseWsAux, rmAfterOpenAux, rmBeforeCloseAux, a1Aux, hw,
              close_ne_open, ih0, ih1, ih2, ih3]
        · refine ⟨?_, ?_, ?_, ?_⟩ <;>
            simp [collapseWsAux, rmAfterOpenAux, rmBeforeCloseAux, a1Aux, hw,
              hp, hq, ih0, ih1, ih2, ih3]

/-- `(` is not an operator character. -/
theorem isOp4_open : isOp4 '(' = false := by decide

/-- `)` is not an operator character. -/
theorem isOp4_close : isOp4 ')' = false := by decide

/-- The space character is not an operator character. -/
theorem isOp4_space : isOp4 ' ' = false := by decide

/-- Fusion of the operator-spacing abstraction with `a1Aux` into the single
scan `phiAux`, stated for the six reachable composite states. -/
theorem phi_fusion : ∀ s : Str,
    (absAux [] false (a1Aux false false s) = phiAux false false s) ∧
    (absAux [] false (a1Aux false true s) = phiAux false true s) ∧
    (absAux [] false (a1Aux true false s) = phiAux true false s) ∧
    (absAux [] true (a1Aux false false s) = phiAux true false s) ∧
    (absAux [] true (a1Aux false true s) = phiAux true false s) ∧
    (absAux [] true (a1Aux true false s) = phiAux true false s) := by
  intro s
  induction s with
  | nil => exact ⟨rfl, rfl, rfl, rfl, rfl, rfl⟩
  | cons c cs ih =>
    obtain ⟨ih0, ih1, ih2, ih3, ih4, ih5⟩ := ih
    by_cases hw : isJsWs c = true
    · refine ⟨?_, ?_, ?_, ?_, ?_, ?_⟩ <;>
        simp [a1Aux, absAux, phiAux, hw, ih0, ih1, ih2, ih3, ih4, ih5]
    · simp only [Bool.not_eq_true] at hw
      by_cases ho : isOp4 c = true
      · obtain ⟨-, hp, hq⟩ := isOp4_char c ho
        refine ⟨?_, ?_, ?_, ?_, ?_, ?_⟩ <;>
          simp [a1Aux, absAux, phiAux, hw, ho, hp, hq, isJsWs_space, isOp4_space,
            ih0, ih1, ih2, ih3, ih4, ih5]
      · simp only [Bool.not_eq_true] at ho
        by_cases hp : c = '('
        · subst hp
          refine ⟨?_, ?_, ?_, ?_, ?_, ?_⟩ <;>
            simp [a1Aux, absAux, phiAux, hw, ho, open_ne_close, isJsWs_space,
              isOp4_space, isOp4_open, ih0, ih1, ih2, ih3, ih4, ih5]
        · by_cases hq : c = ')'
          · subst hq
            refine ⟨?_, ?_, ?_, ?_, ?_, ?_⟩ <;>
              simp [a1Aux, absAux, phiAux, hw, ho, close_ne_open, isJsWs_space,
                isOp4_space, isOp4_close, ih0, ih1, ih2, ih3, ih4, ih5]
          · refine ⟨?_, ?_, ?_, ?_, ?_, ?_⟩ <;>
              simp [a1Aux, absAux, phiAux, hw, ho, hp, hq, isJsWs_space,
                isOp4_space, ih0, ih1, ih2, ih3, ih4, ih5]

/-- `formatExpression` factors through the atom abstraction: it is the
trimmed rendering of the fused scan. -/
theorem formatExpression_phi (s : Str) :
    formatExpression s = trimWs (renderAtoms (phiAux false false s)) := by
  rw [formatExpression, (a1_fusion s).1, opSpace_renderAbs, (phi_fusion s).1]

/-- Chain well-formedness of the fused scan output, relative to the three
entry states and the emitting context: after a plain non-`(` character
(states with and without a pending space) and after `(`/operator (whitespace
dropping state, any non-space previous atom). -/
theorem phi_chainFrom : ∀ s : Str,
    (∀ c0 : Char, c0 ≠ '(' → chainFrom (Atom.ach c0) (phiAux false false s) = true) ∧
    (∀ c0 : Char, c0 ≠ '(' → chainFrom (Atom.ach c0) (phiAux false true s) = true) ∧
    (∀ p : Atom, isAspA p = false → chainFrom p (phiAux true false s) = true) := by
  intro s
  induction s with
  | nil =>
    refine ⟨fun c0 hc => rfl, fun c0 hc => ?_, fun p hp => rfl⟩
    simp [phiAux, chainFrom, pairOk, atomOk, hc]
  | cons c cs ih =>
    obtain ⟨ih0, ih1, ih2⟩ := ih
    by_cases hw : isJsWs c = true
    · refine ⟨fun c0 hc => ?_, fun c0 hc => ?_, fun p hp => ?_⟩
      · simpa [phiAux, hw] using ih1 c0 hc
      · simpa [phiAux, hw] using ih1 c0 hc
      · simpa [phiAux, hw] using ih2 p hp
    · simp only [Bool.not_eq_true] at hw
      by_cases ho : isOp4 c = true
      · refine ⟨fun c0 hc => ?_, fun c0 hc => ?_, fun p hp => ?_⟩
        · simp [phiAux, hw, ho, chainFrom, pairOk, atomOk, ih2 (Atom.aop c) rfl]
        · simp [phiAux, hw, ho, chainFrom, pairOk, atomOk, ih2 (Atom.aop c) rfl]
        · cases p with
          | asp c1 => simp [isAspA] at hp
          | ach c1 =>
            simp [phiAux, hw, ho, chainFrom, pairOk, atomOk, ih2 (Atom.aop c) rfl]
          | aop c1 =>
            simp [phiAux, hw, ho, chainFrom, pairOk, atomOk, ih2 (Atom.aop c) rfl]
      · simp only [Bool.not_eq_true] at ho
        by_cases hp : c = '('
        · subst hp
          refine ⟨fun c0 hc => ?_, fun c0 hc => ?_, fun p hp' => ?_⟩
          · simp [phiAux, hw, ho, chainFrom, pairOk, atomOk, isJsWs_open,
              isOp4_open, ih2 (Atom.ach '(') rfl]
          · simp [phiAux, hw, ho, chainFrom, pairOk, atomOk, isJsWs_open,
              isOp4_open, hc, ih2 (Atom.ach '(') rfl]
          · cases p with
            | asp c1 => simp [isAspA] at hp'
            | ach c1 =>
              simp [phiAux, hw, ho, chainFrom, pairOk, atomOk, isJsWs_open,
                isOp4_open, ih2 (Atom.ach '(') rfl]
            | aop c1 =>
              simp [phiAux, hw, ho, chainFrom, pairOk, atomOk, isJsWs_open,
                isOp4_open, ih2 (Atom.ach '(') rfl]
        · by_cases hq : c = ')'
          · subst hq
            refine ⟨fun c0 hc => ?_, fun c0 hc => ?_, fun p hp' => ?_⟩
            · simp [phiAux, hw, ho, chainFrom, pairOk, atomOk, isJsWs_close,
                isOp4_close, ih0 ')' (by decide)]
            · simp [phiAux, hw, ho, chainFrom, pairOk, atomOk, isJsWs_close,
                isOp4_close, ih0 ')' (by decide)]
            · cases p with
              | asp c1 => simp [isAspA] at hp'
              | ach c1 =>
                simp [phiAux, hw, ho, chainFrom, pairOk, atomOk, isJsWs_close,
                  isOp4_close, ih0 ')' (by decide)]
              | aop c1 =>
                simp [phiAux, hw, ho, chainFrom, pairOk, atomOk, isJsWs_close,
                  isOp4_close, ih0 ')' (by decide)]
          · refine ⟨fun c0 hc => ?_, fun c0 hc => ?_, fun p hp' => ?_⟩
            · simp [phiAux, hw, ho, hp, hq, chainFrom, pairOk, atomOk, ih0 c hp]
            · simp [phiAux, hw, ho, hp, hq, chainFrom, pairOk, atomOk, hc,
                ih0 c hp]
            · cases p with
              | asp c1 => simp [isAspA] at hp'
              | ach c1 =>
                simp [phiAux, hw, ho, hp, hq, chainFrom, pairOk, atomOk, ih0 c hp]
              | aop c1 =>
                simp [phiAux, hw, ho, hp, hq, chainFrom, pairOk, atomOk, ih0 c hp]

/-- The fused scan produces a well-formed chain from both initial states. -/
theorem phi_chainOk : ∀ s : Str,
    chainOk (phiAux false false s) = true ∧ chainOk (phiAux false true s) = true := by
  intro s
  induction s with
  | nil => exact ⟨rfl, by decide⟩
  | cons c cs ih =>
    obtain ⟨ih0, ih1⟩ := ih
    obtain ⟨gff, gft, gtf⟩ := phi_chainFrom cs
    by_cases hw : isJsWs c = true
    · constructor
      · simpa [phiAux, hw] using ih1
      · simpa [phiAux, hw] using ih1
    · simp only [Bool.not_eq_true] at hw
      by_cases ho : isOp4 c = true
      · constructor <;>
          simp [phiAux, hw, ho, chainOk, chainFrom, atomOk, gtf (Atom.aop c) rfl]
      · simp only [Bool.not_eq_true] at ho
        by_cases hp : c = '('
        · subst hp
          constructor <;>
            simp [phiAux, hw, ho, chainOk, chainFrom, pairOk, atomOk, isJsWs_open,
              isOp4_open, gtf (Atom.ach '(') rfl]
        · by_cases hq : c = ')'
          · subst hq
            constructor <;>
              simp [phiAux, hw, ho, chainOk, chainFrom, pairOk, atomOk,
                isJsWs_close, isOp4_close, gff ')' (by decide)]
          · constructor <;>
              simp [phiAux, hw, ho, hp, hq, chainOk, chainFrom, pairOk, atomOk,
                gff c hp]

/-- A well-formed chain stays well-formed after dropping its head. -/
theorem chainOk_of_cons {a : Atom} {m : List Atom} (h : chainOk (a :: m) = true) :
    chainOk m = true := by
  cases m with
  | nil => rfl
  | cons b m' =>
    simp only [chainOk, chainFrom, Bool.and_eq_true, and_assoc] at h ⊢
    exact ⟨h.2.2.1, h.2.2.2⟩

/-- A well-formed chain stays well-formed after dropping a prefix. -/
theorem chainOk_dropWhile (p : Atom → Bool) :
    ∀ m : List Atom, chainOk m = true → chainOk (m.dropWhile p) = true := by
  intro m
  induction m with
  | nil => intro h; simpa using h
  | cons a m' ih =>
    intro h
    by_cases hp : p a = true
    · rw [List.dropWhile_cons, if_pos hp]
      exact ih (chainOk_of_cons h)
    · rw [List.dropWhile_cons, if_neg (by simpa using hp)]
      exact h

/-- Dropping trailing kept spaces preserves a chain from any previous atom. -/
theorem chainFrom_dropTrail :
    ∀ (m : List Atom) (prev : Atom), chainFrom prev m = true →
      chainFrom prev (dropTrailAsp m) = true := by
  intro m
  induction m with
  | nil => intro prev h; exact h
  | cons b m' ih =>
    intro prev h
    simp only [chainFrom, Bool.and_eq_true, and_assoc] at h
    obtain ⟨hpair, hatom, hrest⟩ := h
    simp only [dropTrailAsp]
    cases hr : dropTrailAsp m' with
    | nil =>
      by_cases hb : isAspA b = true
      · simp [hb, chainFrom]
      · simp [hb, chainFrom, hpair, hatom]
    | cons c r' =>
      have hc := ih b hrest
      rw [hr] at hc
      simp only [chainFrom, Bool.and_eq_true, and_assoc] at hc
      simp [chainFrom, hpair, hatom, hc.1, hc.2.1, hc.2.2]

/-- Dropping trailing kept spaces preserves chain well-formedness. -/
theorem chainOk_dropTrail :
    ∀ m : List Atom, chainOk m = true → chainOk (dropTrailAsp m) = true := by
  intro m h
  cases m with
  | nil => exact h
  | cons a m' =>
    simp only [chainOk, Bool.and_eq_true] at h
    obtain ⟨hatom, hfrom⟩ := h
    simp only [dropTrailAsp]
    cases hr : dropTrailAsp m' with
    | nil =>
      by_cases ha : isAspA a = true
      · simp [ha, chainOk]
      · simp [ha, chainOk, hatom, chainFrom]
    | cons c r' =>
      have hc := chainFrom_dropTrail m' a hfrom
      rw [hr] at hc
      simp [chainOk, hatom, hc]

/-- The head surviving `dropWhile isAspA` is not a kept space. -/
theorem head_dropWhile_asp :
    ∀ (m : List Atom) (a : Atom), (m.dropWhile isAspA).head? = some a →
      isAspA a = false := by
  intro m
  induction m with
  | nil => intro a h; simp at h
  | cons b m' ih =>
    intro a h
    by_cases hb : isAspA b = true
    · rw [List.dropWhile_cons, if_pos hb] at h
      exact ih a h
    · rw [List.dropWhile_cons, if_neg (by simpa using hb)] at h
      simp only [List.head?_cons, Option.some.injEq] at h
      subst h
      simpa using hb

/-- The last atom after `dropTrailAsp` is not a kept space. -/
theorem getLast_dropTrail :
    ∀ (m : List Atom) (a : Atom), (dropTrailAsp m).getLast? = some a →
      isAspA a = false := by
  intro m
  induction m with
  | nil => intro a h; simp [dropTrailAsp] at h
  | cons b m' ih =>
    intro a h
    simp only [dropTrailAsp] at h
    cases hr : dropTrailAsp m' with
    | nil =>
      rw [hr] at h
      by_cases hb : isAspA b = true
      · simp [hb] at h
      · simp only [hb, if_false, Bool.false_eq_true, List.getLast?_singleton,
          Option.some.injEq] at h
        subst h
        simpa using hb
    | cons c r' =>
      rw [hr, List.getLast?_cons_cons, ← hr] at h
      exact ih a h

/-- `dropTrailAsp` preserves the head. -/
theorem head_dropTrail :
    ∀ (m : List Atom) (a : Atom), (dropTrailAsp m).head? = some a →
      m.head? = some a := by
  intro m
  cases m with
  | nil => intro a h; simp [dropTrailAsp] at h
  | cons b m' =>
    intro a h
    simp only [dropTrailAsp] at h
    cases hr : dropTrailAsp m' with
    | nil =>
      rw [hr] at h
      by_cases hb : isAspA b = true
      · simp [hb] at h
      · simp only [hb, if_false, Bool.false_eq_true, List.head?_cons,
          Option.some.injEq] at h
        simp [h]
    | cons c r' =>
      rw [hr] at h
      simp only [List.head?_cons, Option.some.injEq] at h
      simp [h]

/-- Trimming a well-formed chain yields a normalised atom list. -/
theorem goodAtoms_trimAtoms (m : List Atom) (h : chainOk m = true) :
    goodAtoms (trimAtoms m) = true := by
  have h1 : chainOk (trimAtoms m) = true :=
    chainOk_dropTrail _ (chainOk_dropWhile _ m h)
  have hH : notAspHead (trimAtoms m).head? = true := by
    cases hh : (trimAtoms m).head? with
    | none => rfl
    | some a =>
      have : isAspA a = false := head_dropWhile_asp m a (head_dropTrail _ a hh)
      simp [notAspHead, this]
  have hL : notAspHead (trimAtoms m).getLast? = true := by
    cases hl : (trimAtoms m).getLast? with
    | none => rfl
    | some a =>
      have : isAspA a = false := getLast_dropTrail _ a hl
      simp [notAspHead, this]
  simp [goodAtoms, h1, hH, hL]

/-- `dropTrailAsp` is the identity when the last atom is not a kept space. -/
theorem dropTrail_id :
    ∀ m : List Atom, notAspHead m.getLast? = true → dropTrailAsp m = m := by
  intro m
  induction m with
  | nil => intro h; rfl
  | cons a m' ih =>
    intro h
    cases m' with
    | nil =>
      simp only [List.getLast?_singleton, notAspHead, Bool.not_eq_true'] at h
      simp [dropTrailAsp, h]
    | cons b m'' =>
      rw [List.getLast?_cons_cons] at h
      have hid := ih h
      conv_lhs => rw [dropTrailAsp]
      rw [hid]

/-- Trimming is the identity on a normalised atom list. -/
theorem trimAtoms_id_of_good (m : List Atom) (h : goodAtoms m = true) :
    trimAtoms m = m := by
  simp only [goodAtoms, Bool.and_eq_true, and_assoc] at h
  obtain ⟨hchain, hhead, hlast⟩ := h
  have hdw : m.dropWhile isAspA = m := by
    cases m with
    | nil => rfl
    | cons a m' =>
      have : isAspA a = false := by
        simpa [notAspHead, Bool.not_eq_true'] using hhead
      rw [List.dropWhile_cons, if_neg (by simp [this])]
  unfold trimAtoms
  rw [hdw]
  exact dropTrail_id m hlast

/-- An atom renders as its core surrounded by its operator padding. -/
theorem renderAtom_eq (a : Atom) :
    renderAtom a = (if isAopA a then [' '] else []) ++ atomCore a ++
      (if isAopA a then [' '] else []) := by
  cases a <;> rfl

/-- The core of an atom is one character. -/
theorem atomCore_eq (a : Atom) : atomCore a = [coreChar a] := by
  cases a <;> rfl

/-- The trailing padding only depends on the last atom. -/
theorem aPadR_cons_cons (a b : Atom) (m : List Atom) :
    aPadR (a :: b :: m) = aPadR (b :: m) := by
  simp [aPadR, List.getLast?_cons_cons]

/-- Full rendering is the boundary-free rendering with operator padding at
the two ends. -/
theorem renderAtoms_pad : ∀ m : List Atom,
    renderAtoms m = aPadL m ++ renderC m ++ aPadR m := by
  intro m
  induction m with
  | nil => rfl
  | cons a m ih =>
    cases m with
    | nil =>
      cases a <;>
        simp [renderAtoms_cons, renderAtoms_nil, renderAtom, renderC, atomCore,
          aPadL, aPadR, isAopA]
    | cons b m' =>
      rw [renderAtoms_cons, ih, renderC, aPadR_cons_cons, renderAtom_eq a]
      simp [sepA, aPadL, List.append_assoc]

/-- `renderC` of a nonempty list starts with the head's core character. -/
theorem renderC_cons_ex (a : Atom) (m : List Atom) :
    ∃ r, renderC (a :: m) = coreChar a :: r := by
  cases m with
  | nil => exact ⟨[], by rw [renderC, atomCore_eq]⟩
  | cons b m' =>
    exact ⟨sepA a b ++ renderC (b :: m'), by rw [renderC, atomCore_eq]; rfl⟩

/-- `renderC` of a concat ends with the last atom's core character. -/
theorem renderC_concat_ex :
    ∀ (m : List Atom) (a : Atom), ∃ r, renderC (m ++ [a]) = r ++ [coreChar a] := by
  intro m
  induction m with
  | nil => intro a; exact ⟨[], by simp [renderC, atomCore_eq]⟩
  | cons b m' ih =>
    intro a
    obtain ⟨r, hr⟩ := ih a
    cases hq : m' ++ [a] with
    | nil => exact absurd hq (by simp)
    | cons c rest =>
      refine ⟨atomCore b ++ sepA b c ++ r, ?_⟩
      have hsh : (b :: m') ++ [a] = b :: c :: rest := by rw [List.cons_append, hq]
      rw [hsh, renderC, ← hq, hr]
      simp [List.append_assoc]

/-- `dropWhile` ignores a fully-satisfying prefix. -/
theorem dropWhile_append_all {p : Char → Bool} :
    ∀ u y : Str, (∀ c ∈ u, p c = true) → (u ++ y).dropWhile p = y.dropWhile p := by
  intro u
  induction u with
  | nil => intro y _; rfl
  | cons c u' ih =>
    intro y h
    rw [List.cons_append, List.dropWhile_cons, if_pos (h c (List.mem_cons_self c u'))]
    exact ih y fun d hd => h d (List.mem_cons_of_mem c hd)

/-- `dropWhile` distributes over an append once it has stopped. -/
theorem dropWhile_append_ne_nil {p : Char → Bool} :
    ∀ x w : Str, x.dropWhile p ≠ [] → (x ++ w).dropWhile p = x.dropWhile p ++ w := by
  intro x
  induction x with
  | nil => intro w h; exact absurd rfl h
  | cons c x' ih =>
    intro w h
    by_cases hc : p c = true
    · rw [List.dropWhile_cons, if_pos hc] at h
      rw [List.cons_append, List.dropWhile_cons, if_pos hc, ih w h,
        List.dropWhile_cons, if_pos hc]
    · rw [List.cons_append, List.dropWhile_cons, if_neg (by simpa using hc),
        List.dropWhile_cons, if_neg (by simpa using hc), List.cons_append]

/-- `trimEnd` ignores an all-whitespace suffix. -/
theorem trimEnd_append_all (y w : Str) (h : ∀ c ∈ w, isJsWs c = true) :
    trimEndWs (y ++ w) = trimEndWs y := by
  unfold trimEndWs
  rw [List.reverse_append, dropWhile_append_all _ _ fun c hc =>
    h c (List.mem_reverse.mp hc)]

/-- `trim` ignores an all-whitespace prefix. -/
theorem trimWs_ws_prefix (w x : Str) (h : ∀ c ∈ w, isJsWs c = true) :
    trimWs (w ++ x) = trimWs x := by
  unfold trimWs trimStartWs
  rw [dropWhile_append_all w x h]

/-- `trim` ignores an all-whitespace suffix. -/
theorem trimWs_append_all (x w : Str) (h : ∀ c ∈ w, isJsWs c = true) :
    trimWs (x ++ w) = trimWs x := by
  unfold trimWs
  by_cases hx : trimStartWs x = []
  · unfold trimStartWs at hx ⊢
    have hxall : ∀ c ∈ x, isJsWs c = true := by
      simpa [List.dropWhile_eq_nil_iff] using hx
    rw [dropWhile_append_all x w hxall, hx]
    have hw : w.dropWhile isJsWs = [] := by
      rw [List.dropWhile_eq_nil_iff]
      exact h
    rw [hw]
  · have hsplit : trimStartWs (x ++ w) = trimStartWs x ++ w :=
      dropWhile_append_ne_nil x w hx
    rw [hsplit]
    exact trimEnd_append_all _ _ h

/-- `trimStart` keeps a string starting with non-whitespace. -/
theorem trimStart_not_ws (c : Char) (l : Str) (h : isJsWs c = false) :
    trimStartWs (c :: l) = c :: l := by
  unfold trimStartWs
  rw [List.dropWhile_cons, if_neg (by simp [h])]

/-- `trimEnd` keeps a string ending with non-whitespace. -/
theorem trimEnd_concat_not_ws (l : Str) (c : Char) (h : isJsWs c = false) :
    trimEndWs (l ++ [c]) = l ++ [c] := by
  unfold trimEndWs
  simp [List.reverse_append, List.dropWhile_cons, h]

/-- Every atom of a chain is well-formed. -/
theorem chainFrom_mem :
    ∀ (m : List Atom) (prev a : Atom), chainFrom prev m = true → a ∈ m →
      atomOk a = true := by
  intro m
  induction m with
  | nil => intro prev a _ ha; simp at ha
  | cons b m' ih =>
    intro prev a h ha
    simp only [chainFrom, Bool.and_eq_true, and_assoc] at h
    rcases List.mem_cons.mp ha with rfl | ha'
    · exact h.2.1
    · exact ih b a h.2.2 ha'

/-- Every atom of a well-formed chain is well-formed. -/
theorem chainOk_mem (m : List Atom) (a : Atom) (h : chainOk m = true)
    (ha : a ∈ m) : atomOk a = true := by
  cases m with
  | nil => simp at ha
  | cons b m' =>
    simp only [chainOk, Bool.and_eq_true] at h
    rcases List.mem_cons.mp ha with rfl | ha'
    · exact h.1
    · exact chainFrom_mem m' b a h.2 ha'

/-- The core character of a well-formed non-space atom is not whitespace. -/
theorem coreChar_not_ws (a : Atom) (hok : atomOk a = true)
    (hasp : isAspA a = false) : isJsWs (coreChar a) = false := by
  cases a with
  | ach c =>
    simp only [atomOk, Bool.and_eq_true, Bool.not_eq_true'] at hok
    simpa [coreChar] using hok.1
  | asp c => simp [isAspA] at hasp
  | aop c =>
    simp only [atomOk] at hok
    simpa [coreChar] using (isOp4_char c hok).1

/-- Dropping the leading kept spaces of a chain does not change the trimmed
rendering. -/
theorem trim_render_dropWhile :
    ∀ m : List Atom, chainOk m = true →
      trimWs (renderAtoms m) = trimWs (renderAtoms (m.dropWhile isAspA)) := by
  intro m
  induction m with
  | nil => intro _; rfl
  | cons a m' ih =>
    intro h
    by_cases ha : isAspA a = true
    · cases a with
      | asp c =>
        have hok : atomOk (Atom.asp c) = true := chainOk_mem _ _ h (by simp)
        have hc : c = ' ' := by simpa [atomOk] using hok
        subst hc
        rw [List.dropWhile_cons, if_pos ha, renderAtoms_cons]
        have hra : renderAtom (Atom.asp ' ') = [' '] := rfl
        rw [hra, trimWs_ws_prefix [' '] _ ?_]
        · exact ih (chainOk_of_cons h)
        · intro c hc
          simp only [List.mem_singleton] at hc
          subst hc
          exact isJsWs_space
      | ach c => simp [isAspA] at ha
      | aop c => simp [isAspA] at ha
    · rw [List.dropWhile_cons, if_neg (by simpa using ha)]

/-- `dropTrailAsp` splits a list into its result and a kept-space tail. -/
theorem dropTrail_decomp :
    ∀ m : List Atom, ∃ ks : List Atom,
      m = dropTrailAsp m ++ ks ∧ ∀ a ∈ ks, isAspA a = true := by
  intro m
  induction m with
  | nil => exact ⟨[], rfl, by simp⟩
  | cons b m' ih =>
    obtain ⟨ks, hks, hall⟩ := ih
    cases hr : dropTrailAsp m' with
    | nil =>
      rw [hr, List.nil_append] at hks
      by_cases hb : isAspA b = true
      · refine ⟨b :: ks, ?_, ?_⟩
        · simp only [dropTrailAsp, hr, hb, if_true, List.nil_append]
          rw [← hks]
        · intro a ha
          rcases List.mem_cons.mp ha with rfl | h'
          · exact hb
          · exact hall a h'
      · refine ⟨ks, ?_, hall⟩
        simp only [dropTrailAsp, hr, hb, Bool.false_eq_true, if_false,
          List.cons_append, List.nil_append]
        rw [← hks]
    | cons c r' =>
      refine ⟨ks, ?_, hall⟩
      rw [hr] at hks
      conv_lhs => rw [hks]
      conv_rhs => rw [dropTrailAsp, hr]
      simp

/-- The rendering of a list of well-formed kept spaces is all whitespace. -/
theorem renderAtoms_all_ws :
    ∀ ks : List Atom, (∀ a ∈ ks, isAspA a = true ∧ atomOk a = true) →
      ∀ c ∈ renderAtoms ks, isJsWs c = true := by
  intro ks
  induction ks with
  | nil => intro _ c hc; simp [renderAtoms_nil] at hc
  | cons a ks' ih =>
    intro h c hc
    obtain ⟨hasp, hok⟩ := h a (by simp)
    cases a with
    | asp c' =>
      have hc' : c' = ' ' := by simpa [atomOk] using hok
      subst hc'
      rw [renderAtoms_cons] at hc
      rcases List.mem_append.mp hc with h1 | h2
      · have hcc : c = ' ' := by simpa [renderAtom] using h1
        subst hcc
        exact isJsWs_space
      · exact ih (fun a ha => h a (by simp [ha])) c h2
    | ach c' => simp [isAspA] at hasp
    | aop c' => simp [isAspA] at hasp

/-- Dropping the trailing kept spaces of a chain does not change the trimmed
rendering. -/
theorem trim_render_dropTrail (m : List Atom) (h : chainOk m = true) :
    trimWs (renderAtoms m) = trimWs (renderAtoms (dropTrailAsp m)) := by
  obtain ⟨ks, hks, hall⟩ := dropTrail_decomp m
  conv_lhs => rw [hks, renderAtoms_append]
  apply trimWs_append_all
  apply renderAtoms_all_ws
  intro a ha
  refine ⟨hall a ha, chainOk_mem m a h ?_⟩
  rw [hks]
  exact List.mem_append_right _ ha

/-- The leading operator padding is whitespace. -/
theorem aPadL_ws (m : List Atom) : ∀ c ∈ aPadL m, isJsWs c = true := by
  intro c hc
  cases m with
  | nil => simp [aPadL] at hc
  | cons a m' =>
    by_cases ha : isAopA a = true
    · simp only [aPadL, ha, if_true, List.mem_singleton] at hc
      subst hc
      exact isJsWs_space
    · simp [aPadL, ha] at hc

/-- The trailing operator padding is whitespace. -/
theorem aPadR_ws (m : List Atom) : ∀ c ∈ aPadR m, isJsWs c = true := by
  intro c hc
  unfold aPadR at hc
  cases hl : m.getLast? with
  | none => rw [hl] at hc; simp at hc
  | some a =>
    rw [hl] at hc
    by_cases ha : isAopA a = true
    · simp only [ha, if_true, List.mem_singleton] at hc
      subst hc
      exact isJsWs_space
    · simp [ha] at hc

/-- The boundary-free rendering of a normalised atom list is already
trimmed. -/
theorem trim_renderC_good (m : List Atom) (h : goodAtoms m = true) :
    trimWs (renderC m) = renderC m := by
  cases m with
  | nil => rfl
  | cons a m' =>
    simp only [goodAtoms, Bool.and_eq_true, and_assoc] at h
    obtain ⟨hchain, hhead, hlast⟩ := h
    have haspa : isAspA a = false := by
      simpa [notAspHead, Bool.not_eq_true'] using hhead
    have hoka : atomOk a = true := chainOk_mem _ _ hchain (by simp)
    obtain ⟨r, hr⟩ := renderC_cons_ex a m'
    obtain ⟨m0, last, hm⟩ : ∃ m0 last, a :: m' = m0 ++ [last] := by
      rcases (a :: m').eq_nil_or_concat with hnil | ⟨m0, last, hml⟩
      · simp at hnil
      · exact ⟨m0, last, by simpa [List.concat_eq_append] using hml⟩
    have hgl : (a :: m').getLast? = some last := by
      rw [hm]
      exact List.getLast?_concat _
    have hlast' : isAspA last = false := by
      rw [hgl] at hlast
      simpa [notAspHead, Bool.not_eq_true'] using hlast
    have hokl : atomOk last = true := by
      refine chainOk_mem _ _ hchain ?_
      rw [hm]
      exact List.mem_append_right _ (by simp)
    obtain ⟨r2, hr2⟩ := renderC_concat_ex m0 last
    have h1 : trimStartWs (renderC (a :: m')) = renderC (a :: m') := by
      rw [hr]
      exact trimStart_not_ws _ _ (coreChar_not_ws a hoka haspa)
    have h2 : trimEndWs (renderC (a :: m')) = renderC (a :: m') := by
      rw [hm, hr2]
      exact trimEnd_concat_not_ws _ _ (coreChar_not_ws last hokl hlast')
    unfold trimWs
    rw [h1, h2]

/-- The trimmed full rendering of a normalised atom list is its
boundary-free rendering. -/
theorem trim_render_good (m : List Atom) (h : goodAtoms m = true) :
    trimWs (renderAtoms m) = renderC m := by
  rw [renderAtoms_pad m, List.append_assoc, trimWs_ws_prefix _ _ (aPadL_ws m),
    trimWs_append_all _ _ (aPadR_ws m)]
  exact trim_renderC_good m h

/-- The trimmed rendering of a well-formed chain is the boundary-free
rendering of its trimmed form. -/
theorem trim_render_chain (m : List Atom) (h : chainOk m = true) :
    trimWs (renderAtoms m) = renderC (trimAtoms m) := by
  rw [trim_render_dropWhile m h,
    trim_render_dropTrail _ (chainOk_dropWhile _ m h)]
  exact trim_render_good _ (goodAtoms_trimAtoms m h)

/-- Scanner step: a plain (non-whitespace, non-operator) character emits its
atom from either no-pending state; the next state drops whitespace exactly
after `(`. -/
theorem phiAux_ach (c : Char) (hw : isJsWs c = false) (ho : isOp4 c = false)
    (d : Bool) (l : Str) :
    phiAux d false (c :: l) =
      Atom.ach c :: phiAux (if c = '(' then true else false) false l := by
  by_cases hq : c = ')'
  · subst hq
    simp [phiAux, hw, ho, close_ne_open]
  · by_cases hp : c = '('
    · subst hp
      simp [phiAux, hw, ho]
    · simp [phiAux, hw, ho, hp, hq]

/-- Scanner step: a plain non-`)` character from the pending state flushes
the kept space and emits its atom. -/
theorem phiAux_ach_pend (c : Char) (hw : isJsWs c = false) (ho : isOp4 c = false)
    (hq : c ≠ ')') (l : Str) :
    phiAux false true (c :: l) =
      Atom.asp ' ' :: Atom.ach c :: phiAux (if c = '(' then true else false) false l := by
  by_cases hp : c = '('
  · subst hp
    simp [phiAux, hw, ho]
  · simp [phiAux, hw, ho, hp, hq]

/-- Scanner step: an operator character from any state drops the pending
space and emits its atom. -/
theorem phiAux_aop (c : Char) (ho : isOp4 c = true) (d p : Bool) (l : Str) :
    phiAux d p (c :: l) = Atom.aop c :: phiAux true false l := by
  obtain ⟨hw, -, -⟩ := isOp4_char c ho
  cases d <;> cases p <;> simp [phiAux, hw, ho]

/-- Scanner step: whitespace is skipped in the dropping state. -/
theorem phiAux_ws_skip (l : Str) :
    phiAux true false (' ' :: l) = phiAux true false l := by
  simp [phiAux, isJsWs_space]

/-- Scanner step: whitespace becomes pending in the neutral state. -/
theorem phiAux_ws_pend (l : Str) :
    phiAux false false (' ' :: l) = phiAux false true l := by
  simp [phiAux, isJsWs_space]

/-- Reconstruction: scanning the boundary-free rendering of a well-formed
atom list recovers the list, for each of the scanner's entry states (with
the entry conditions under which that state is reached). -/
theorem phi_renderC_aux : ∀ m : List Atom, chainOk m = true →
    (phiAux false false (renderC m) = m) ∧
    (notAspHead m.head? = true → phiAux true false (renderC m) = m) ∧
    ((∀ x, m.head? = some x → ∃ c, x = Atom.ach c ∧ c ≠ ')') →
      phiAux false true (renderC m) = Atom.asp ' ' :: m) ∧
    (∀ c0 m0, m = Atom.aop c0 :: m0 → phiAux false true (renderC m) = m) := by
  intro m
  induction m with
  | nil =>
    intro _
    exact ⟨rfl, fun _ => rfl, fun _ => rfl, fun c0 m0 h0 => absurd h0 (by simp)⟩
  | cons a m ih =>
    intro hch
    cases m with
    | nil =>
      have hoka : atomOk a = true := by simpa [chainOk, chainFrom] using hch
      cases a with
      | ach c =>
        obtain ⟨hw, ho⟩ : isJsWs c = false ∧ isOp4 c = false := by
          simpa [atomOk, Bool.and_eq_true, Bool.not_eq_true'] using hoka
        refine ⟨?_, fun _ => ?_, fun hhd => ?_, fun c0 m0 h0 => absurd h0 (by simp)⟩
        · simp only [renderC, atomCore]
          rw [phiAux_ach c hw ho]
          simp [phiAux]
        · simp only [renderC, atomCore]
          rw [phiAux_ach c hw ho]
          simp [phiAux]
        · obtain ⟨c', hx, hne⟩ := hhd (Atom.ach c) rfl
          injection hx with hcc
          subst hcc
          simp only [renderC, atomCore]
          rw [phiAux_ach_pend c hw ho hne]
          simp [phiAux]
      | asp c =>
        have hc : c = ' ' := by simpa [atomOk] using hoka
        subst hc
        refine ⟨?_, fun hhd => ?_, fun hhd => ?_, fun c0 m0 h0 => absurd h0 (by simp)⟩
        · simp [renderC, atomCore, phiAux, isJsWs_space]
        · simp [notAspHead, isAspA] at hhd
        · obtain ⟨c', hx, -⟩ := hhd _ rfl
          exact absurd hx (by simp)
      | aop c =>
        have ho : isOp4 c = true := by simpa [atomOk] using hoka
        refine ⟨?_, fun _ => ?_, fun hhd => ?_, fun c0 m0 h0 => ?_⟩
        · simp only [renderC, atomCore]
          rw [phiAux_aop c ho]
          simp [phiAux]
        · simp only [renderC, atomCore]
          rw [phiAux_aop c ho]
          simp [phiAux]
        · obtain ⟨c', hx, -⟩ := hhd _ rfl
          exact absurd hx (by simp)
        · simp only [renderC, atomCore]
          rw [phiAux_aop c ho]
          simp [phiAux]
    | cons b m' =>
      have hdc := hch
      simp only [chainOk, chainFrom, Bool.and_eq_true, and_assoc] at hdc
      obtain ⟨hoka, hpair, hokb, hfromb⟩ := hdc
      have hchb : chainOk (b :: m') = true := by
        simp [chainOk, hokb, hfromb]
      obtain ⟨I1, I2, I3, I4⟩ := ih hchb
      cases a with
      | ach c =>
        obtain ⟨hw, ho⟩ : isJsWs c = false ∧ isOp4 c = false := by
          simpa [atomOk, Bool.and_eq_true, Bool.not_eq_true'] using hoka
        have hcont : phiAux (if c = '(' then true else false) false
            (sepA (Atom.ach c) b ++ renderC (b :: m')) = b :: m' := by
          by_cases hp : c = '('
          · rw [if_pos hp]
            have hbns : notAspHead (b :: m').head? = true := by
              cases b with
              | asp cb => subst hp; simp [pairOk] at hpair
              | ach cb => simp [notAspHead, isAspA]
              | aop cb => simp [notAspHead, isAspA]
            by_cases hb : isAopA b = true
            · rw [show sepA (Atom.ach c) b = [' '] from by
                  unfold sepA; rw [hb]; simp [isAopA],
                List.singleton_append, phiAux_ws_skip]
              exact I2 hbns
            · rw [show sepA (Atom.ach c) b = [] from by
                  unfold sepA; rw [show isAopA b = false from by simpa using hb];
                  simp [isAopA],
                List.nil_append]
              exact I2 hbns
          · rw [if_neg hp]
            by_cases hb : isAopA b = true
            · cases b with
              | aop cb =>
                rw [show sepA (Atom.ach c) (Atom.aop cb) = [' '] from by
                    simp [sepA, isAopA],
                  List.singleton_append, phiAux_ws_pend]
                exact I4 cb m' rfl
              | ach cb => simp [isAopA] at hb
              | asp cb => simp [isAopA] at hb
            · rw [show sepA (Atom.ach c) b = [] from by
                  unfold sepA; rw [show isAopA b = false from by simpa using hb];
                  simp [isAopA],
                List.nil_append]
              exact I1
        refine ⟨?_, fun _ => ?_, fun hhd => ?_, fun c0 m0 h0 => absurd h0 (by simp)⟩
        · rw [renderC]
          simp only [atomCore, List.cons_append, List.nil_append]
          rw [phiAux_ach c hw ho, hcont]
        · rw [renderC]
          simp only [atomCore, List.cons_append, List.nil_append]
          rw [phiAux_ach c hw ho, hcont]
        · obtain ⟨c', hx, hne⟩ := hhd (Atom.ach c) rfl
          injection hx with hcc
          subst hcc
          rw [renderC]
          simp only [atomCore, List.cons_append, List.nil_append]
          rw [phiAux_ach_pend c hw ho hne, hcont]
      | asp c =>
        have hc : c = ' ' := by simpa [atomOk] using hoka
        subst hc
        cases b with
        | asp cb => simp [pairOk] at hpair
        | aop cb => simp [pairOk] at hpair
        | ach cb =>
          have hcb : cb ≠ ')' := by simpa [pairOk] using hpair
          have hcont : phiAux false true (renderC (Atom.ach cb :: m')) =
              Atom.asp ' ' :: Atom.ach cb :: m' := by
            refine I3 ?_
            intro x hx
            simp only [List.head?_cons, Option.some.injEq] at hx
            exact ⟨cb, hx.symm, hcb⟩
          refine ⟨?_, fun hhd => ?_, fun hhd => ?_, fun c0 m0 h0 => absurd h0 (by simp)⟩
          · rw [renderC,
              show sepA (Atom.asp ' ') (Atom.ach cb) = [] from by simp [sepA, isAopA],
              List.append_nil]
            simp only [atomCore, List.singleton_append]
            rw [phiAux_ws_pend, hcont]
          · simp [notAspHead, isAspA] at hhd
          · obtain ⟨c', hx, -⟩ := hhd _ rfl
            exact absurd hx (by simp)
      | aop c =>
        have ho : isOp4 c = true := by simpa [atomOk] using hoka
        have hbns : notAspHead (b :: m').head? = true := by
          cases b with
          | asp cb => simp [pairOk] at hpair
          | ach cb => simp [notAspHead, isAspA]
          | aop cb => simp [notAspHead, isAspA]
        have hcont : phiAux true false
            (sepA (Atom.aop c) b ++ renderC (b :: m')) = b :: m' := by
          by_cases hb : isAopA b = true
          · rw [show sepA (Atom.aop c) b = [' ', ' '] from by
                unfold sepA; rw [hb]; simp [isAopA]]
            simp only [List.cons_append, List.nil_append]
            rw [phiAux_ws_skip, phiAux_ws_skip]
            exact I2 hbns
          · rw [show sepA (Atom.aop c) b = [' '] from by
                unfold sepA; rw [show isAopA b = false from by simpa using hb];
                simp [isAopA],
              List.singleton_append, phiAux_ws_skip]
            exact I2 hbns
        refine ⟨?_, fun _ => ?_, fun hhd => ?_, fun c0 m0 h0 => ?_⟩
        · rw [renderC]
          simp only [atomCore, List.cons_append, List.nil_append]
          rw [phiAux_aop c ho, hcont]
        · rw [renderC]
          simp only [atomCore, List.cons_append, List.nil_append]
          rw [phiAux_aop c ho, hcont]
        · obtain ⟨c', hx, -⟩ := hhd _ rfl
          exact absurd hx (by simp)
        · rw [renderC]
          simp only [atomCore, List.cons_append, List.nil_append]
          rw [phiAux_aop c ho, hcont]

/-- C9: `formatExpression` is idempotent — formatting an already formatted
expression changes nothing, for every input string. -/
theorem formatExpression_idempotent (s : Str) :
    formatExpression (formatExpression s) = formatExpression s := by
  have hchain : chainOk (phiAux false false s) = true := (phi_chainOk s).1
  have hgood : goodAtoms (trimAtoms (phiAux false false s)) = true :=
    goodAtoms_trimAtoms _ hchain
  have hcmt : chainOk (trimAtoms (phiAux false false s)) = true := by
    have hg := hgood
    simp only [goodAtoms, Bool.and_eq_true, and_assoc] at hg
    exact hg.1
  have h1 : formatExpression s = renderC (trimAtoms (phiAux false false s)) := by
    rw [formatExpression_phi s]
    exact trim_render_chain _ hchain
  have hphi : phiAux false false (formatExpression s) =
      trimAtoms (phiAux false false s) := by
    rw [h1]
    exact (phi_renderC_aux _ hcmt).1
  rw [formatExpression_phi (formatExpression s), hphi, trim_render_chain _ hcmt,
    trimAtoms_id_of_good _ hgood, ← h1]
